import Mathlib

/-!
Verification of the httomo core against its specification.

The definitions below are shallow embeddings of the Python sources:
  * `httomo/runner/platform_section.py` (sectionizer),
  * `httomo/runner/loader.py` (preview, chunk split, loader construction),
  * `httomo/methods.py` (intermediate-data chunk shape).
Machine/float arithmetic is idealised as exact arithmetic on `Nat`
(Python's banker's rounding of `round` is modelled exactly on rationals
`a / b` by `pyRound a b`).
-/

namespace Httomo

/-- Modelled from the spec: the `Pattern` axis label `{projection, sinogram, all}`
(`httomo/utils.py` is not part of the sources; the glossary defines the three values). -/
inductive Pattern where
  | projection
  | sinogram
  | all
deriving DecidableEq, Repr

/-- Modelled from the spec: the method-wrapper attributes the sectionizer reads
(`pattern`, `is_gpu`, `save_result`, `glob_stats`; §4.4 Input).  `method_name` is the
informational name every wrapper carries; it stands in for the identity of the
wrapper object. -/
structure MethodWrapper where
  method_name : String
  pattern : Pattern
  is_gpu : Bool
  save_result : Bool
  glob_stats : Bool
deriving DecidableEq, Repr

/-- `PlatformSection` record from `platform_section.py`. -/
structure PlatformSection where
  gpu : Bool
  pattern : Pattern
  reslice : Bool
  max_slices : Nat
  methods : List MethodWrapper
  save_result : Bool
deriving DecidableEq, Repr

/-- Modelled from the spec: the pipeline input of the sectionizer — a loader
(carrying its pattern and a reslice flag) and an ordered method list (§4.4 Input).
`httomo/runner/pipeline.py` is not part of the sources; the source code of
`sectionize` additionally reads `main_pipeline_start`, which the `Pipeline`
constructor defaults to `0`. -/
structure Pipeline where
  loader_pattern : Pattern
  loader_reslice : Bool
  methods : List MethodWrapper
  main_pipeline_start : Nat
deriving DecidableEq, Repr

/-- `is_pattern_compatible` from `sectionize`. -/
def is_pattern_compatible (a b : Pattern) : Bool :=
  decide (a = Pattern.all) || decide (b = Pattern.all) || decide (a = b)

/-- `should_save_after` from `sectionize` (the method's own `save_result`
configuration, or the global save-all switch). -/
def should_save_after (saveAll : Bool) (m : MethodWrapper) : Bool :=
  m.save_result || saveAll

/-- `needs_global_input` from `sectionize`. -/
def needs_global_input (m : MethodWrapper) : Bool :=
  m.glob_stats

/-- The loop-carried variables of `sectionize`'s forward loop. -/
structure FwdState where
  gpu : Bool
  pattern : Pattern
  current : List MethodWrapper
  savePrev : Bool
deriving DecidableEq, Repr

/-- `finish_section` from `sectionize`: append a section only when the current
method list is nonempty. -/
def finish_section (st : FwdState) (needsReslice saveAfter : Bool) : List PlatformSection :=
  if st.current = [] then []
  else [⟨st.gpu, st.pattern, needsReslice, 0, st.current, saveAfter⟩]

/-- The forward loop of `sectionize` (`for i, method in enumerate(pipeline)`),
with the final `finish_section` call at the end of the list. -/
def forward_pass (saveAll : Bool) (mps : Nat) : Nat → FwdState → List MethodWrapper →
    List PlatformSection
  | _, st, [] => finish_section st false st.savePrev
  | i, st, m :: rest =>
    if needs_global_input m || st.savePrev || !is_pattern_compatible st.pattern m.pattern
        || !(decide (m.is_gpu = st.gpu)) || decide (i = mps) then
      finish_section st (!is_pattern_compatible st.pattern m.pattern)
          (st.savePrev || needs_global_input m) ++
        forward_pass saveAll mps (i + 1)
          ⟨m.is_gpu, if m.pattern = Pattern.all then st.pattern else m.pattern, [m],
            should_save_after saveAll m⟩ rest
    else
      forward_pass saveAll mps (i + 1)
        ⟨st.gpu, if st.pattern = Pattern.all then m.pattern else st.pattern,
          st.current ++ [m], should_save_after saveAll m⟩ rest

/-- The backward sweep inside `_backpropagate_section_patterns`: walk the sections
from the last one backwards, carrying `last_pattern` (initially `Pattern.all`),
replacing an `all` pattern by the carried one.  Returns the rewritten list and the
final carried pattern (the updated pattern of the first section). -/
def backprop : List PlatformSection → List PlatformSection × Pattern
  | [] => ([], Pattern.all)
  | s :: rest =>
    let r := backprop rest
    let p := if s.pattern = Pattern.all then r.2 else s.pattern
    ({ s with pattern := p } :: r.1, p)

/-- `_backpropagate_section_patterns`: the backward sweep plus the loader update
(adopt the carried pattern when the loader pattern is `all`, otherwise flag a
loader reslice when it differs). -/
def backpropagate_section_patterns (p : Pipeline) (sections : List PlatformSection) :
    Pipeline × List PlatformSection :=
  let r := backprop sections
  if p.loader_pattern = Pattern.all then
    ({ p with loader_pattern := r.2 }, r.1)
  else if p.loader_pattern = r.2 then
    (p, r.1)
  else
    ({ p with loader_reslice := true }, r.1)

/-- `_finalize_patterns`: when there are sections and the first still has pattern
`all`, give every section and the loader the default pattern. -/
def finalize_patterns (p : Pipeline) (sections : List PlatformSection)
    (defaultPattern : Pattern) : Pipeline × List PlatformSection :=
  match sections.head? with
  | some s0 =>
    if s0.pattern = Pattern.all then
      ({ p with loader_pattern := defaultPattern },
        sections.map (fun s => { s with pattern := defaultPattern }))
    else (p, sections)
  | none => (p, sections)

/-- `_set_method_patterns`: stamp every method with its section's pattern. -/
def set_method_patterns (sections : List PlatformSection) : List PlatformSection :=
  sections.map (fun s =>
    { s with methods := s.methods.map (fun m => { m with pattern := s.pattern }) })

/-- `sectionize` from `platform_section.py`: forward pass, backward pattern sweep,
pattern finalisation with default `projection`, method stamping.  Returns the
section list and the (mutated) pipeline. -/
def sectionize (p : Pipeline) (saveAll : Bool) : List PlatformSection × Pipeline :=
  let sections := forward_pass saveAll p.main_pipeline_start 0
    ⟨false, p.loader_pattern, [], false⟩ p.methods
  let r1 := backpropagate_section_patterns p sections
  let r2 := finalize_patterns r1.1 r1.2 Pattern.projection
  (set_method_patterns r2.2, r2.1)

/-- The `save_result` configuration of the last method of a list (`false` for the
empty list). -/
def last_save_of (l : List MethodWrapper) : Bool :=
  match l.getLast? with
  | some m => m.save_result
  | none => false

/-- The `glob_stats` configuration of the first method of a list (`false` for the
empty list). -/
def first_glob_of (l : List MethodWrapper) : Bool :=
  match l.head? with
  | some m => m.glob_stats
  | none => false

/-- The `save_result` configuration of a section's last method (`false` for an
empty section, which `sectionize` never emits). -/
def last_save (s : PlatformSection) : Bool :=
  last_save_of s.methods

/-- The `glob_stats` configuration of a section's first method (`false` for an
empty section, which `sectionize` never emits). -/
def first_glob (s : PlatformSection) : Bool :=
  first_glob_of s.methods

/-- The claim's reading of the reslice flags: each section's `reslice` is set iff
its pattern differs from the preceding section's pattern (the carried pattern
starts at the loader's pattern). -/
def reslice_matches_prev : Pattern → List PlatformSection → Bool
  | _, [] => true
  | prev, s :: rest =>
    (s.reslice == decide (¬s.pattern = prev)) && reslice_matches_prev s.pattern rest

/-- The claim's reading of the save flags: each section's `save_result` is set iff
its own last method requested persistence. -/
def save_matches_last (sections : List PlatformSection) : Bool :=
  sections.all fun s => s.save_result == last_save s

/-- Claim C1 as stated, as an executable check on the output of `sectionize`. -/
def c1_claim_check (p : Pipeline) (saveAll : Bool) : Bool :=
  reslice_matches_prev (sectionize p saveAll).2.loader_pattern (sectionize p saveAll).1 &&
    save_matches_last (sectionize p saveAll).1

/-- A pipeline with a projection loader followed by a projection method and a
sinogram method, both on CPU, with no persistence requests. -/
def c1_example_pipeline : Pipeline :=
  ⟨Pattern.projection, false,
    [⟨"m1", Pattern.projection, false, false, false⟩,
     ⟨"m2", Pattern.sinogram, false, false, false⟩], 0⟩

/-- C1 fails on the code: with a projection loader and methods
`[projection, sinogram]`, `sectionize` puts `reslice := true` on the *first*
section (whose pattern equals the loader's pattern) and `reslice := false` on the
second section (whose pattern differs from its predecessor), the opposite of what
the claim predicts. -/
theorem c1_counterexample : c1_claim_check c1_example_pipeline false = false := by decide

/-- The corrected flag discipline (the amended C1): every non-final section's
`reslice` flag is set iff its pattern differs from the *following* section's
pattern, the final section's `reslice` flag is `false`, and a section's
`save_result` flag is set iff its own last method requested persistence, or
global save-all is on, or the first method of the following section needs global
statistics. -/
def flags_ok (saveAll : Bool) : List PlatformSection → Bool
  | [] => true
  | [s] => (!s.reslice) && (s.save_result == (last_save s || saveAll))
  | s :: t :: rest =>
    (s.reslice == decide (¬s.pattern = t.pattern)) &&
      (s.save_result == (last_save s || saveAll || first_glob t)) &&
      flags_ok saveAll (t :: rest)

/-- The flag discipline as it holds right after the forward pass, before the
pattern sweep: a section that still has pattern `all` carries `reslice = false`;
a section with a concrete pattern is followed by a concrete-patterned section and
its `reslice` records whether the two differ. -/
def fwd_flags_ok (saveAll : Bool) : List PlatformSection → Bool
  | [] => true
  | [s] => (!s.reslice) && (s.save_result == (last_save s || saveAll))
  | s :: t :: rest =>
    (if s.pattern = Pattern.all then !s.reslice
     else decide (¬t.pattern = Pattern.all) && (s.reslice == decide (¬s.pattern = t.pattern))) &&
      (s.save_result == (last_save s || saveAll || first_glob t)) &&
      fwd_flags_ok saveAll (t :: rest)

/-- The pattern of the first section of a list (`Pattern.all` for the empty list,
matching the initial `last_pattern` of the backward sweep). -/
def head_pattern (sections : List PlatformSection) : Pattern :=
  match sections.head? with
  | some s => s.pattern
  | none => Pattern.all

/-- A pipeline with a sinogram loader followed by a single projection GPU method. -/
def c3_example_pipeline : Pipeline :=
  ⟨Pattern.sinogram, false, [⟨"m1", Pattern.projection, true, false, false⟩], 0⟩

/-- C3 fails on the code: with a sinogram loader and a single projection method,
the loader does *not* adopt the resulting first-section pattern — it keeps its
declared `sinogram` pattern (and sets its reslice flag instead). -/
theorem c3_counterexample :
    ¬((sectionize c3_example_pipeline false).2.loader_pattern =
      head_pattern (sectionize c3_example_pipeline false).1) := by decide

/-- The forward pass establishes `fwd_flags_ok`: flags are computed from the last
method of the finished section and the method that triggers the split.  The
second conjunct tracks the first emitted section's head method and pattern in
terms of the incoming loop state. -/
theorem forward_pass_flags (saveAll : Bool) (mps : Nat) :
    ∀ (ms : List MethodWrapper) (i : Nat) (st : FwdState),
      (st.current ≠ [] → st.savePrev = (last_save_of st.current || saveAll)) →
      fwd_flags_ok saveAll (forward_pass saveAll mps i st ms) = true ∧
      (st.current ≠ [] → ∃ h t, forward_pass saveAll mps i st ms = h :: t ∧
        h.methods.head? = st.current.head? ∧
        (st.pattern ≠ Pattern.all → h.pattern = st.pattern)) := by
  intro ms
  induction ms with
  | nil =>
    intro i st hsv
    constructor
    · show fwd_flags_ok saveAll (finish_section st false st.savePrev) = true
      unfold finish_section
      by_cases hc : st.current = []
      · simp [hc, fwd_flags_ok]
      · simp only [hc, if_neg, ite_false]
        simp [fwd_flags_ok, last_save, hsv hc]
    · intro hc
      refine ⟨⟨st.gpu, st.pattern, false, 0, st.current, st.savePrev⟩, [], ?_, rfl, fun _ => rfl⟩
      show finish_section st false st.savePrev = _
      unfold finish_section
      simp [hc]
  | cons m rest ih =>
    intro i st hsv
    by_cases hsplit :
        (needs_global_input m || st.savePrev || !is_pattern_compatible st.pattern m.pattern
          || !(decide (m.is_gpu = st.gpu)) || decide (i = mps)) = true
    · -- a new section starts before `m`
      have hstep : forward_pass saveAll mps i st (m :: rest) =
          finish_section st (!is_pattern_compatible st.pattern m.pattern)
            (st.savePrev || needs_global_input m) ++
          forward_pass saveAll mps (i + 1)
            ⟨m.is_gpu, if m.pattern = Pattern.all then st.pattern else m.pattern, [m],
              should_save_after saveAll m⟩ rest := by
        rw [forward_pass, if_pos hsplit]
      have hsv' : (FwdState.mk m.is_gpu
          (if m.pattern = Pattern.all then st.pattern else m.pattern) [m]
          (should_save_after saveAll m)).current ≠ [] →
          (FwdState.mk m.is_gpu
            (if m.pattern = Pattern.all then st.pattern else m.pattern) [m]
            (should_save_after saveAll m)).savePrev =
          (last_save_of (FwdState.mk m.is_gpu
            (if m.pattern = Pattern.all then st.pattern else m.pattern) [m]
            (should_save_after saveAll m)).current || saveAll) := by
        intro _
        rfl
      obtain ⟨hadj, hhead⟩ := ih (i + 1)
        ⟨m.is_gpu, if m.pattern = Pattern.all then st.pattern else m.pattern, [m],
          should_save_after saveAll m⟩ hsv'
      obtain ⟨h, t, heq, hh1, hh2⟩ := hhead (by simp)
      by_cases hc : st.current = []
      · rw [hstep]
        unfold finish_section
        rw [if_pos hc, List.nil_append]
        exact ⟨hadj, fun hcc => absurd hc hcc⟩
      · have hout : forward_pass saveAll mps i st (m :: rest) =
            ⟨st.gpu, st.pattern, !is_pattern_compatible st.pattern m.pattern, 0, st.current,
              st.savePrev || needs_global_input m⟩ :: h :: t := by
          rw [hstep]
          unfold finish_section
          rw [if_neg hc, heq]
          rfl
        constructor
        · rw [hout]
          show (_ && _ && _) = true
          simp only [Bool.and_eq_true]
          refine ⟨⟨?_, ?_⟩, ?_⟩
          · -- pattern / reslice pair check
            by_cases hall : st.pattern = Pattern.all
            · simp [hall, is_pattern_compatible]
            · have hne : (if m.pattern = Pattern.all then st.pattern else m.pattern) ≠
                  Pattern.all := by
                by_cases hm : m.pattern = Pattern.all
                · simpa [hm] using hall
                · simpa [hm] using hm
              have hp' : h.pattern = (if m.pattern = Pattern.all then st.pattern else m.pattern) :=
                hh2 hne
              by_cases hm : m.pattern = Pattern.all
              · simp [hall, hm, hp', is_pattern_compatible]
              · by_cases heqp : st.pattern = m.pattern
                · simp [hall, hm, hp', heqp, is_pattern_compatible]
                · simp [hall, hm, hp', heqp, is_pattern_compatible]
          · -- save check
            have hh1' : h.methods.head? = some m := by rw [hh1]; rfl
            have hg : first_glob h = m.glob_stats := by
              unfold first_glob first_glob_of
              rw [hh1']
            simp only [last_save, hg]
            show ((st.savePrev || needs_global_input m) ==
              (last_save_of st.current || saveAll || m.glob_stats)) = true
            rw [hsv hc]
            simp [needs_global_input]
          · rw [← heq]
            exact hadj
        · intro _
          exact ⟨_, h :: t, hout, rfl, fun _ => rfl⟩
    · -- `m` joins the current section
      have hstep : forward_pass saveAll mps i st (m :: rest) =
          forward_pass saveAll mps (i + 1)
            ⟨st.gpu, if st.pattern = Pattern.all then m.pattern else st.pattern,
              st.current ++ [m], should_save_after saveAll m⟩ rest := by
        rw [forward_pass, if_neg (by simpa using hsplit)]
      have hsv' : (FwdState.mk st.gpu
          (if st.pattern = Pattern.all then m.pattern else st.pattern)
          (st.current ++ [m]) (should_save_after saveAll m)).current ≠ [] →
          (FwdState.mk st.gpu
            (if st.pattern = Pattern.all then m.pattern else st.pattern)
            (st.current ++ [m]) (should_save_after saveAll m)).savePrev =
          (last_save_of (FwdState.mk st.gpu
            (if st.pattern = Pattern.all then m.pattern else st.pattern)
            (st.current ++ [m]) (should_save_after saveAll m)).current || saveAll) := by
        intro _
        show should_save_after saveAll m = (last_save_of (st.current ++ [m]) || saveAll)
        simp [last_save_of, List.getLast?_concat, should_save_after]
      obtain ⟨hadj, hhead⟩ := ih (i + 1)
        ⟨st.gpu, if st.pattern = Pattern.all then m.pattern else st.pattern,
          st.current ++ [m], should_save_after saveAll m⟩ hsv'
      rw [hstep]
      refine ⟨hadj, ?_⟩
      intro hc
      obtain ⟨a, l, hal⟩ := List.exists_cons_of_ne_nil hc
      obtain ⟨h, t, heq, hh1, hh2⟩ := hhead (by simp)
      refine ⟨h, t, heq, ?_, ?_⟩
      · rw [hh1, hal]
        rfl
      · intro hall
        have : (if st.pattern = Pattern.all then m.pattern else st.pattern) = st.pattern := by
          rw [if_neg hall]
        rw [hh2 (by rw [this]; exact hall), this]

/-- The pattern carried out of the backward sweep is the updated pattern of the
first section (`Pattern.all` when there are no sections). -/
theorem backprop_snd_eq_head (L : List PlatformSection) :
    (backprop L).2 = head_pattern (backprop L).1 := by
  cases L with
  | nil => rfl
  | cons s rest => rfl

/-- The backward sweep turns the forward-pass flag discipline into the final one:
afterwards every non-final section's `reslice` records whether its pattern
differs from the following section's pattern.  When the carried pattern is still
`all`, the discipline also survives rewriting every pattern to the default. -/
theorem backprop_flags (saveAll : Bool) :
    ∀ L : List PlatformSection, fwd_flags_ok saveAll L = true →
      flags_ok saveAll (backprop L).1 = true ∧
      ((backprop L).2 = Pattern.all →
        flags_ok saveAll ((backprop L).1.map
          (fun s => { s with pattern := Pattern.projection })) = true) := by
  intro L
  induction L with
  | nil => exact fun _ => ⟨rfl, fun _ => rfl⟩
  | cons s rest ih =>
    cases rest with
    | nil =>
      intro hf
      simp only [fwd_flags_ok, Bool.and_eq_true] at hf
      have h2 : s.save_result = (last_save_of s.methods || saveAll) := by
        simpa [last_save] using hf.2
      constructor
      · show flags_ok saveAll [{ s with pattern := _ }] = true
        simp [flags_ok, last_save, last_save_of, hf.1, h2]
      · intro _
        show flags_ok saveAll [{ s with pattern := Pattern.projection }] = true
        simp [flags_ok, last_save, last_save_of, hf.1, h2]
    | cons t rest2 =>
      intro hf
      simp only [fwd_flags_ok, Bool.and_eq_true] at hf
      obtain ⟨⟨hpair, hsave⟩, htail⟩ := hf
      obtain ⟨ih1, ih2⟩ := ih htail
      have hhd : (backprop (t :: rest2)).2 = head_pattern (backprop (t :: rest2)).1 :=
        backprop_snd_eq_head _
      have hbt : (backprop (t :: rest2)).1 =
          { t with pattern := if t.pattern = Pattern.all then (backprop rest2).2
              else t.pattern } :: (backprop rest2).1 := rfl
      have hbt2 : (backprop (t :: rest2)).2 =
          if t.pattern = Pattern.all then (backprop rest2).2 else t.pattern := rfl
      have hout : backprop (s :: t :: rest2) =
          ({ s with pattern := if s.pattern = Pattern.all then (backprop (t :: rest2)).2
              else s.pattern } :: (backprop (t :: rest2)).1,
            if s.pattern = Pattern.all then (backprop (t :: rest2)).2 else s.pattern) := rfl
      constructor
      · rw [hout]
        show flags_ok saveAll (_ :: _) = true
        rw [hbt]
        simp only [flags_ok, Bool.and_eq_true]
        refine ⟨⟨?_, ?_⟩, ?_⟩
        · by_cases hs : s.pattern = Pattern.all
          · have hres : s.reslice = false := by
              rw [if_pos hs] at hpair
              simpa using hpair
            rw [hbt] at hhd
            simp only [hs, if_pos]
            simp [hres, hhd.symm, hbt2]
          · rw [if_neg hs] at hpair
            simp only [Bool.and_eq_true] at hpair
            have ht : ¬t.pattern = Pattern.all := by simpa using hpair.1
            simp only [hs, ht, if_neg, ite_false]
            simpa using hpair.2
        · simpa [last_save, first_glob] using hsave
        · rw [← hbt]
          exact ih1
      · intro hall
        rw [hout] at hall ⊢
        simp only at hall
        by_cases hs : s.pattern = Pattern.all
        · rw [if_pos hs] at hall
          have hres : s.reslice = false := by
            rw [if_pos hs] at hpair
            simpa using hpair
          rw [hbt]
          simp only [List.map_cons, flags_ok, Bool.and_eq_true]
          refine ⟨⟨?_, ?_⟩, ?_⟩
          · simp [hres]
          · simpa [last_save, first_glob] using hsave
          · have := ih2 hall
            rw [hbt] at this
            simpa [List.map_cons] using this
        · rw [if_neg hs] at hall
          exact absurd hall hs

/-- `_finalize_patterns` preserves the flag discipline: it either leaves the
sections alone or (when the first pattern is still `all`) rewrites every pattern
to the default, which the second hypothesis covers. -/
theorem finalize_flags (saveAll : Bool) (p : Pipeline) (L : List PlatformSection)
    (h1 : flags_ok saveAll L = true)
    (h2 : head_pattern L = Pattern.all →
      flags_ok saveAll (L.map (fun s => { s with pattern := Pattern.projection })) = true) :
    flags_ok saveAll (finalize_patterns p L Pattern.projection).2 = true := by
  cases L with
  | nil => exact h1
  | cons s rest =>
    show flags_ok saveAll
      (if s.pattern = Pattern.all then _ else ((p, s :: rest) : Pipeline × List PlatformSection)).2
      = true
    by_cases hs : s.pattern = Pattern.all
    · rw [if_pos hs]
      exact h2 (by simp [head_pattern, hs])
    · rw [if_neg hs]
      exact h1

/-- Stamping a section's methods with the section's pattern leaves the
`save_result` of its last method unchanged. -/
theorem stamp_last_save (s : PlatformSection) :
    last_save { s with
        methods := s.methods.map (fun m => { m with pattern := s.pattern }) } =
      last_save s := by
  unfold last_save last_save_of
  simp only [List.getLast?_map]
  cases s.methods.getLast? <;> rfl

/-- Stamping a section's methods with the section's pattern leaves the
`glob_stats` of its first method unchanged. -/
theorem stamp_first_glob (s : PlatformSection) :
    first_glob { s with
        methods := s.methods.map (fun m => { m with pattern := s.pattern }) } =
      first_glob s := by
  unfold first_glob first_glob_of
  simp only [List.head?_map]
  cases s.methods.head? <;> rfl

/-- `_set_method_patterns` does not affect the flag discipline (it only rewrites
the pattern fields of the methods inside each section). -/
theorem set_method_patterns_flags (saveAll : Bool) :
    ∀ L : List PlatformSection,
      flags_ok saveAll (set_method_patterns L) = flags_ok saveAll L := by
  intro L
  induction L with
  | nil => rfl
  | cons s rest ih =>
    cases rest with
    | nil =>
      show flags_ok saveAll [_] = flags_ok saveAll [s]
      simp [flags_ok, stamp_last_save]
    | cons t rest2 =>
      simp only [set_method_patterns, List.map_cons] at ih ⊢
      show flags_ok saveAll (_ :: _ :: _) = _
      simp only [flags_ok]
      rw [stamp_last_save, stamp_first_glob, ih]

/-- The pipeline half of `_backpropagate_section_patterns` does not change the
section list: its section output is always the sweep's output. -/
theorem backpropagate_sections_eq (p : Pipeline) (L : List PlatformSection) :
    (backpropagate_section_patterns p L).2 = (backprop L).1 := by
  simp only [backpropagate_section_patterns]
  split_ifs <;> rfl

/-- Amended C1, proved: in the output of `sectionize`, every non-final section's
`reslice` flag is set iff its pattern differs from the *following* section's
pattern, the final section's `reslice` flag is `false`, and each section's
`save_result` flag is set iff its own last method requested persistence, or
global save-all is on, or the first method of the following section has
`glob_stats` set. -/
theorem c1_section_flags (p : Pipeline) (saveAll : Bool) :
    flags_ok saveAll (sectionize p saveAll).1 = true := by
  have hfwd := (forward_pass_flags saveAll p.main_pipeline_start p.methods 0
    ⟨false, p.loader_pattern, [], false⟩ (fun h => absurd rfl h)).1
  obtain ⟨hb1, hb2⟩ := backprop_flags saveAll _ hfwd
  show flags_ok saveAll (set_method_patterns (finalize_patterns
    (backpropagate_section_patterns p (forward_pass saveAll p.main_pipeline_start 0
      ⟨false, p.loader_pattern, [], false⟩ p.methods)).1
    (backpropagate_section_patterns p (forward_pass saveAll p.main_pipeline_start 0
      ⟨false, p.loader_pattern, [], false⟩ p.methods)).2 Pattern.projection).2) = true
  rw [set_method_patterns_flags, backpropagate_sections_eq]
  exact finalize_flags saveAll _ _ hb1
    (fun hh => hb2 ((backprop_snd_eq_head _).trans hh))

/-- The forward pass partitions the method list: concatenating the emitted
sections' method lists gives back the pending methods appended to the input. -/
theorem forward_pass_methods (saveAll : Bool) (mps : Nat) :
    ∀ (ms : List MethodWrapper) (i : Nat) (st : FwdState),
      ((forward_pass saveAll mps i st ms).map PlatformSection.methods).flatten =
        st.current ++ ms := by
  intro ms
  induction ms with
  | nil =>
    intro i st
    show ((finish_section st false st.savePrev).map PlatformSection.methods).flatten =
      st.current ++ []
    unfold finish_section
    by_cases hc : st.current = []
    · simp [hc]
    · simp [hc]
  | cons m rest ih =>
    intro i st
    by_cases hsplit :
        (needs_global_input m || st.savePrev || !is_pattern_compatible st.pattern m.pattern
          || !(decide (m.is_gpu = st.gpu)) || decide (i = mps)) = true
    · rw [forward_pass, if_pos hsplit]
      rw [List.map_append, List.flatten_append, ih]
      unfold finish_section
      by_cases hc : st.current = []
      · simp [hc]
      · simp [hc]
    · rw [forward_pass, if_neg (by simpa using hsplit)]
      rw [ih]
      simp

/-- The backward sweep leaves every section's method list unchanged. -/
theorem backprop_methods :
    ∀ L : List PlatformSection,
      (backprop L).1.map PlatformSection.methods = L.map PlatformSection.methods := by
  intro L
  induction L with
  | nil => rfl
  | cons s rest ih =>
    show PlatformSection.methods _ :: (backprop rest).1.map PlatformSection.methods = _
    rw [ih]
    rfl

/-- Rewriting every section's pattern leaves the method lists unchanged. -/
theorem map_update_pattern_methods (d : Pattern) :
    ∀ L : List PlatformSection,
      (L.map (fun u => { u with pattern := d })).map PlatformSection.methods =
        L.map PlatformSection.methods := by
  intro L
  induction L with
  | nil => rfl
  | cons a l ih => exact congrArg (List.cons a.methods) ih

/-- `_finalize_patterns` leaves every section's method list unchanged. -/
theorem finalize_methods (p : Pipeline) (L : List PlatformSection) (d : Pattern) :
    (finalize_patterns p L d).2.map PlatformSection.methods =
      L.map PlatformSection.methods := by
  cases L with
  | nil => rfl
  | cons s rest =>
    show (if s.pattern = Pattern.all then _
      else ((p, s :: rest) : Pipeline × List PlatformSection)).2.map PlatformSection.methods = _
    by_cases hs : s.pattern = Pattern.all
    · rw [if_pos hs]
      exact map_update_pattern_methods d (s :: rest)
    · rw [if_neg hs]

/-- The identity of the methods, with the pattern field ignored: `sectionize`
stamps patterns but never reorders, duplicates, drops or otherwise edits the
method wrappers. -/
def erase_pattern (m : MethodWrapper) : String × Bool × Bool × Bool :=
  (m.method_name, m.is_gpu, m.save_result, m.glob_stats)

/-- Stamping a method list with a pattern is invisible to `erase_pattern`. -/
theorem stamp_erase (c : Pattern) :
    ∀ l : List MethodWrapper,
      (l.map (fun m => { m with pattern := c })).map erase_pattern =
        l.map erase_pattern := by
  intro l
  induction l with
  | nil => rfl
  | cons a l ih => exact congrArg (List.cons (erase_pattern a)) ih

/-- `_set_method_patterns` preserves the concatenated method list up to the
pattern field. -/
theorem set_method_patterns_erase :
    ∀ L : List PlatformSection,
      (((set_method_patterns L).map PlatformSection.methods).flatten).map erase_pattern =
        ((L.map PlatformSection.methods).flatten).map erase_pattern := by
  intro L
  induction L with
  | nil => rfl
  | cons s rest ih =>
    simp only [set_method_patterns, List.map_cons, List.flatten_cons,
      List.map_append] at ih ⊢
    rw [stamp_erase, ih]

/-- A section still carrying pattern `all` after the sweep means the sweep's
carried pattern is `all` only if it sits in an all-`all` region; this gives the
non-`all` guarantee when the carried pattern is concrete. -/
theorem backprop_nonall (saveAll : Bool) :
    ∀ L : List PlatformSection, fwd_flags_ok saveAll L = true →
      (backprop L).2 ≠ Pattern.all →
      ∀ s ∈ (backprop L).1, s.pattern ≠ Pattern.all := by
  intro L
  induction L with
  | nil =>
    intro _ _ s hs
    cases hs
  | cons s rest ih =>
    cases rest with
    | nil =>
      intro _ hsnd u hu
      have hL : (backprop [s]).1 = [{ s with pattern :=
          if s.pattern = Pattern.all then Pattern.all else s.pattern }] := rfl
      rw [hL] at hu
      have hu' := List.mem_singleton.mp hu
      rw [hu']
      exact hsnd
    | cons t rest2 =>
      intro hf hsnd u hu
      simp only [fwd_flags_ok, Bool.and_eq_true] at hf
      obtain ⟨⟨hpair, _⟩, htail⟩ := hf
      have hsnd' : (backprop (s :: t :: rest2)).2 =
          if s.pattern = Pattern.all then (backprop (t :: rest2)).2 else s.pattern := rfl
      have hcons : (backprop (s :: t :: rest2)).1 =
          { s with pattern := if s.pattern = Pattern.all then (backprop (t :: rest2)).2
              else s.pattern } :: (backprop (t :: rest2)).1 := rfl
      rw [hcons] at hu
      rw [hsnd'] at hsnd
      rcases List.mem_cons.mp hu with hu | hu
      · rw [hu]
        exact hsnd
      · refine ih htail ?_ u hu
        by_cases hs : s.pattern = Pattern.all
        · rw [if_pos hs] at hsnd
          exact hsnd
        · rw [if_neg hs] at hpair
          simp only [Bool.and_eq_true] at hpair
          have ht : ¬t.pattern = Pattern.all := by simpa using hpair.1
          show ¬_ = _
          rw [show (backprop (t :: rest2)).2 =
            if t.pattern = Pattern.all then (backprop rest2).2 else t.pattern from rfl]
          rw [if_neg ht]
          exact ht

/-- The section half of `_finalize_patterns` on a nonempty section list. -/
theorem finalize_sections_eq (p : Pipeline) (h : PlatformSection)
    (r : List PlatformSection) (d : Pattern) :
    (finalize_patterns p (h :: r) d).2 =
      if h.pattern = Pattern.all then
        (h :: r).map (fun s => { s with pattern := d })
      else h :: r := by
  show (if h.pattern = Pattern.all then _
    else ((p, h :: r) : Pipeline × List PlatformSection)).2 = _
  by_cases hs : h.pattern = Pattern.all
  · rw [if_pos hs, if_pos hs]
  · rw [if_neg hs, if_neg hs]

/-- C4, proved: the concatenation of `section.methods` over the output of
`sectionize` is the input method list in order (the pattern field aside, which
the final stamping pass rewrites on the same wrapper objects), and every output
section has a pattern other than `all`. -/
theorem c4_coverage (p : Pipeline) (saveAll : Bool) :
    (((sectionize p saveAll).1.map PlatformSection.methods).flatten).map erase_pattern =
      p.methods.map erase_pattern ∧
    (sectionize p saveAll).1.all (fun s => !decide (s.pattern = Pattern.all)) = true := by
  have hfwd := (forward_pass_flags saveAll p.main_pipeline_start p.methods 0
    ⟨false, p.loader_pattern, [], false⟩ (fun h => absurd rfl h)).1
  have hsec : (sectionize p saveAll).1 = set_method_patterns (finalize_patterns
      (backpropagate_section_patterns p (forward_pass saveAll p.main_pipeline_start 0
        ⟨false, p.loader_pattern, [], false⟩ p.methods)).1
      (backprop (forward_pass saveAll p.main_pipeline_start 0
        ⟨false, p.loader_pattern, [], false⟩ p.methods)).1 Pattern.projection).2 := by
    show set_method_patterns _ = _
    rw [backpropagate_sections_eq]
  constructor
  · rw [hsec, set_method_patterns_erase, finalize_methods, backprop_methods,
      forward_pass_methods]
    rfl
  · rw [hsec]
    rw [List.all_eq_true]
    intro u hu
    simp only [set_method_patterns, List.mem_map] at hu
    obtain ⟨v, hv, rfl⟩ := hu
    simp only [Bool.not_eq_true', decide_eq_false_iff_not]
    show ¬v.pattern = Pattern.all
    revert v hv
    by_cases hall : (backprop (forward_pass saveAll p.main_pipeline_start 0
        ⟨false, p.loader_pattern, [], false⟩ p.methods)).2 = Pattern.all
    · -- everything is still `all`: the finalisation rewrites all patterns
      cases hL : (backprop (forward_pass saveAll p.main_pipeline_start 0
          ⟨false, p.loader_pattern, [], false⟩ p.methods)).1 with
      | nil =>
        intro v hv
        simp [finalize_patterns] at hv
      | cons h r =>
        have hhp : h.pattern = Pattern.all := by
          have hx := (backprop_snd_eq_head (forward_pass saveAll p.main_pipeline_start 0
            ⟨false, p.loader_pattern, [], false⟩ p.methods)).symm.trans hall
          rw [hL] at hx
          simpa [head_pattern] using hx
        intro v hv
        show ¬v.pattern = Pattern.all
        rw [finalize_sections_eq, if_pos hhp] at hv
        simp only [List.mem_map] at hv
        obtain ⟨w, _, rfl⟩ := hv
        simp
    · -- the carried pattern is concrete: no section still carries `all`
      have hn := backprop_nonall saveAll _ hfwd hall
      cases hL : (backprop (forward_pass saveAll p.main_pipeline_start 0
          ⟨false, p.loader_pattern, [], false⟩ p.methods)).1 with
      | nil =>
        intro v hv
        simp [finalize_patterns] at hv
      | cons h r =>
        have hhp : ¬h.pattern = Pattern.all := by
          refine hn h ?_
          rw [hL]
          exact List.mem_cons_self _ _
        intro v hv
        rw [finalize_sections_eq, if_neg hhp] at hv
        refine hn v ?_
        rw [hL]
        exact hv

/-- The spec's split rule, written from its words: a new section starts before a
method exactly when its pattern is incompatible with the current section's
pattern, its platform differs, the previous method was marked to save (or global
save-all is on), or it needs global statistics — with no other trigger. -/
def forward_pass_spec_rule (saveAll : Bool) : FwdState → List MethodWrapper →
    List PlatformSection
  | st, [] => finish_section st false st.savePrev
  | st, m :: rest =>
    if needs_global_input m || st.savePrev || !is_pattern_compatible st.pattern m.pattern
        || !(decide (m.is_gpu = st.gpu)) then
      finish_section st (!is_pattern_compatible st.pattern m.pattern)
          (st.savePrev || needs_global_input m) ++
        forward_pass_spec_rule saveAll
          ⟨m.is_gpu, if m.pattern = Pattern.all then st.pattern else m.pattern, [m],
            should_save_after saveAll m⟩ rest
    else
      forward_pass_spec_rule saveAll
        ⟨st.gpu, if st.pattern = Pattern.all then m.pattern else st.pattern,
          st.current ++ [m], should_save_after saveAll m⟩ rest

/-- `sectionize` with the forward pass replaced by the spec's split rule. -/
def sectionize_split_rule (p : Pipeline) (saveAll : Bool) :
    List PlatformSection × Pipeline :=
  let sections := forward_pass_spec_rule saveAll ⟨false, p.loader_pattern, [], false⟩ p.methods
  let r1 := backpropagate_section_patterns p sections
  let r2 := finalize_patterns r1.1 r1.2 Pattern.projection
  (set_method_patterns r2.2, r2.1)

/-- Past index 0, the code's forward pass (with `main_pipeline_start = 0`) and the
spec's split rule coincide step by step. -/
theorem forward_pass_pos (saveAll : Bool) :
    ∀ (ms : List MethodWrapper) (i : Nat) (st : FwdState), i ≠ 0 →
      forward_pass saveAll 0 i st ms = forward_pass_spec_rule saveAll st ms := by
  intro ms
  induction ms with
  | nil => intro i st _; rfl
  | cons m rest ih =>
    intro i st hi
    have hd : decide (i = 0) = false := by simp [hi]
    have hcond : (needs_global_input m || st.savePrev
        || !is_pattern_compatible st.pattern m.pattern
        || !(decide (m.is_gpu = st.gpu)) || decide (i = 0)) =
        (needs_global_input m || st.savePrev
          || !is_pattern_compatible st.pattern m.pattern
          || !(decide (m.is_gpu = st.gpu))) := by
      rw [hd, Bool.or_false]
    rw [forward_pass, forward_pass_spec_rule, hcond]
    split
    · rw [ih (i + 1) _ (Nat.succ_ne_zero i)]
    · exact ih (i + 1) _ (Nat.succ_ne_zero i)

/-- At index 0 with an empty current section, the extra `start_main_pipeline`
trigger of the code is unobservable: no section is emitted (the current list is
empty) and the state updates of the two branches agree. -/
theorem forward_pass_zero (saveAll : Bool) :
    ∀ (ms : List MethodWrapper) (st : FwdState), st.current = [] →
      forward_pass saveAll 0 0 st ms = forward_pass_spec_rule saveAll st ms := by
  intro ms st hcur
  cases ms with
  | nil => rfl
  | cons m rest =>
    have hfin : finish_section st (!is_pattern_compatible st.pattern m.pattern)
        (st.savePrev || needs_global_input m) = [] := by
      unfold finish_section
      rw [if_pos hcur]
    have hcode : forward_pass saveAll 0 0 st (m :: rest) =
        forward_pass saveAll 0 1
          ⟨m.is_gpu, if m.pattern = Pattern.all then st.pattern else m.pattern, [m],
            should_save_after saveAll m⟩ rest := by
      rw [forward_pass, if_pos (by simp), hfin, List.nil_append]
    rw [hcode, forward_pass_pos saveAll rest 1 _ one_ne_zero, forward_pass_spec_rule]
    by_cases hc : (needs_global_input m || st.savePrev
        || !is_pattern_compatible st.pattern m.pattern
        || !(decide (m.is_gpu = st.gpu))) = true
    · rw [if_pos hc, hfin, List.nil_append]
    · rw [if_neg hc]
      have hgpu : m.is_gpu = st.gpu := by
        by_cases hg : m.is_gpu = st.gpu
        · exact hg
        · exact absurd (by simp [hg]) hc
      have hcompat : is_pattern_compatible st.pattern m.pattern = true := by
        by_cases hp : is_pattern_compatible st.pattern m.pattern = true
        · exact hp
        · exact absurd (by simp [Bool.eq_false_iff.mpr hp]) hc
      have hpat : (if m.pattern = Pattern.all then st.pattern else m.pattern) =
          (if st.pattern = Pattern.all then m.pattern else st.pattern) := by
        by_cases hm : m.pattern = Pattern.all
        · rw [if_pos hm]
          by_cases hs : st.pattern = Pattern.all
          · rw [if_pos hs, hm, hs]
          · rw [if_neg hs]
        · rw [if_neg hm]
          by_cases hs : st.pattern = Pattern.all
          · rw [if_pos hs]
          · rw [if_neg hs]
            have hpq := hcompat
            unfold is_pattern_compatible at hpq
            simp only [hs, hm, Bool.or_eq_true, decide_eq_true_eq, decide_eq_false_iff_not,
              false_or, or_false] at hpq
            exact hpq.symm
      have hstate : (⟨m.is_gpu, if m.pattern = Pattern.all then st.pattern else m.pattern,
          [m], should_save_after saveAll m⟩ : FwdState) =
          ⟨st.gpu, if st.pattern = Pattern.all then m.pattern else st.pattern,
            st.current ++ [m], should_save_after saveAll m⟩ := by
        rw [hgpu, hpat, hcur]
        rfl
      rw [hstate]

/-- A pipeline used to instantiate the section-rule equivalence. -/
def c2_example_pipeline : Pipeline :=
  ⟨Pattern.projection, false,
    [⟨"m1", Pattern.projection, false, true, false⟩,
     ⟨"m2", Pattern.sinogram, true, false, true⟩,
     ⟨"m3", Pattern.all, true, false, false⟩], 0⟩

/-- C2, proved: for a pipeline whose `main_pipeline_start` is the constructor
default `0`, `sectionize` starts a new section before a method exactly under the
claimed conditions — the outputs of the code and of the spec's split rule are
identical. -/
theorem c2_split_rule (p : Pipeline) (saveAll : Bool)
    (h : p.main_pipeline_start = 0) :
    sectionize p saveAll = sectionize_split_rule p saveAll := by
  unfold sectionize sectionize_split_rule
  rw [h, forward_pass_zero saveAll p.methods ⟨false, p.loader_pattern, [], false⟩ rfl]

/-- The split-rule equivalence instantiated at a concrete pipeline. -/
theorem c2_split_rule_witness :
    sectionize c2_example_pipeline false = sectionize_split_rule c2_example_pipeline false :=
  c2_split_rule c2_example_pipeline false rfl

/-- The claim's sweep description, checked positionally: each output section
equals the input section, except that an `all` pattern is replaced by the
(already updated) pattern of the section that follows it (`Pattern.all`, i.e.
unchanged, for the last section). -/
def sweep_ok : List PlatformSection → List PlatformSection → Bool
  | [], [] => true
  | s :: ss, t :: ts =>
    decide (t = { s with pattern := if s.pattern = Pattern.all then head_pattern ts
      else s.pattern }) && sweep_ok ss ts
  | _, _ => false

/-- The backward sweep satisfies the claim's sweep description. -/
theorem backprop_sweep : ∀ L : List PlatformSection, sweep_ok L (backprop L).1 = true := by
  intro L
  induction L with
  | nil => rfl
  | cons s rest ih =>
    have hhd : (backprop rest).2 = head_pattern (backprop rest).1 := backprop_snd_eq_head rest
    show sweep_ok (s :: rest)
      ({ s with pattern := if s.pattern = Pattern.all then (backprop rest).2
        else s.pattern } :: (backprop rest).1) = true
    simp only [sweep_ok, Bool.and_eq_true]
    exact ⟨by rw [hhd]; simp, ih⟩

/-- The pipeline half of `_finalize_patterns` on a nonempty section list. -/
theorem finalize_pipeline_eq (q : Pipeline) (h : PlatformSection)
    (r : List PlatformSection) (d : Pattern) :
    (finalize_patterns q (h :: r) d).1 =
      if h.pattern = Pattern.all then { q with loader_pattern := d } else q := by
  show (if h.pattern = Pattern.all then _
    else ((q, h :: r) : Pipeline × List PlatformSection)).1 = _
  by_cases hs : h.pattern = Pattern.all
  · rw [if_pos hs, if_pos hs]
  · rw [if_neg hs, if_neg hs]

/-- Amended C3, proved: the backward sweep replaces every `all`-pattern section's
pattern by the (updated) pattern of the following section; the loader *adopts*
the resulting first-section pattern only when its own declared pattern is `all`;
otherwise it keeps its declared pattern and its reslice flag is set exactly when
the declared pattern differs from the resulting first-section pattern; and when
every section is still `all` after the sweep, the finalisation gives every
section and the loader the default pattern `projection`. -/
theorem c3_pattern_resolution (p : Pipeline) (sections : List PlatformSection) :
    sweep_ok sections (backprop sections).1 = true ∧
    (backpropagate_section_patterns p sections).1.loader_pattern =
      (if p.loader_pattern = Pattern.all then head_pattern (backprop sections).1
        else p.loader_pattern) ∧
    (backpropagate_section_patterns p sections).1.loader_reslice =
      (p.loader_reslice ||
        (!(decide (p.loader_pattern = Pattern.all)) &&
          !(decide (p.loader_pattern = head_pattern (backprop sections).1)))) ∧
    ((backprop sections).1 ≠ [] →
      (∀ s ∈ (backprop sections).1, s.pattern = Pattern.all) →
      (∀ s ∈ (finalize_patterns (backpropagate_section_patterns p sections).1
          (backprop sections).1 Pattern.projection).2, s.pattern = Pattern.projection) ∧
        (finalize_patterns (backpropagate_section_patterns p sections).1
          (backprop sections).1 Pattern.projection).1.loader_pattern =
          Pattern.projection) := by
  have hbs : (backprop sections).2 = head_pattern (backprop sections).1 :=
    backprop_snd_eq_head sections
  refine ⟨backprop_sweep sections, ?_, ?_, ?_⟩
  · rw [← hbs]
    simp only [backpropagate_section_patterns]
    by_cases h1 : p.loader_pattern = Pattern.all
    · rw [if_pos h1, if_pos h1]
    · rw [if_neg h1, if_neg h1]
      by_cases h2 : p.loader_pattern = (backprop sections).2
      · rw [if_pos h2]
      · rw [if_neg h2]
  · rw [← hbs]
    simp only [backpropagate_section_patterns]
    by_cases h1 : p.loader_pattern = Pattern.all
    · rw [if_pos h1]
      simp [h1]
    · rw [if_neg h1]
      by_cases h2 : p.loader_pattern = (backprop sections).2
      · rw [if_pos h2]
        simp [h2]
      · rw [if_neg h2]
        simp [h1, h2]
  · intro hne hall
    rcases hX : (backprop sections).1 with _ | ⟨h, r⟩
    · exact absurd hX hne
    · have hhp : h.pattern = Pattern.all :=
        hall h (by rw [hX]; exact List.mem_cons_self _ _)
      constructor
      · intro s hs
        rw [finalize_sections_eq, if_pos hhp] at hs
        simp only [List.mem_map] at hs
        obtain ⟨w, _, rfl⟩ := hs
        rfl
      · rw [finalize_pipeline_eq, if_pos hhp]

/-- A pipeline and a section list on which to instantiate the pattern-resolution
theorem (everything still `all` after the sweep). -/
def c3_witness_pipeline : Pipeline :=
  ⟨Pattern.all, false, [⟨"m1", Pattern.all, false, false, false⟩], 0⟩

/-- A single section still carrying pattern `all`. -/
def c3_witness_sections : List PlatformSection :=
  [⟨false, Pattern.all, false, 0, [⟨"m1", Pattern.all, false, false, false⟩], false⟩]

/-- The pattern-resolution theorem instantiated: an all-`all` pipeline gets the
default `projection` pattern on the loader. -/
theorem c3_pattern_resolution_witness :
    (finalize_patterns (backpropagate_section_patterns c3_witness_pipeline
        c3_witness_sections).1 (backprop c3_witness_sections).1
        Pattern.projection).1.loader_pattern = Pattern.projection :=
  ((c3_pattern_resolution c3_witness_pipeline c3_witness_sections).2.2.2
    (by decide) (by decide)).2

/-- Python's `round` on the exact rational `a / b`: round half to even (banker's
rounding).  The float arithmetic of
`round((len(self._data_indices) / nprocs) * rank)` is idealised as exact
rational arithmetic. -/
def pyRound (a b : Nat) : Nat :=
  if 2 * (a % b) < b then a / b
  else if b < 2 * (a % b) then a / b + 1
  else if (a / b) % 2 = 0 then a / b else a / b + 1

theorem pyRound_lb (a b : Nat) : a / b ≤ pyRound a b := by
  unfold pyRound
  split_ifs <;> omega

theorem pyRound_ub (a b : Nat) : pyRound a b ≤ a / b + 1 := by
  unfold pyRound
  split_ifs <;> omega

/-- Rounding half to even is monotone in the numerator. -/
theorem pyRound_mono (b : Nat) (hb : 0 < b) {a a' : Nat} (h : a ≤ a') :
    pyRound a b ≤ pyRound a' b := by
  have hq : a / b ≤ a' / b := Nat.div_le_div_right h
  rcases Nat.lt_or_ge (a / b) (a' / b) with hlt | hge
  · have h1 := pyRound_ub a b
    have h2 := pyRound_lb a' b
    omega
  · have hqe : a / b = a' / b := le_antisymm hq hge
    have e1 := Nat.div_add_mod a b
    have e2 : b * (a / b) + a' % b = a' := by
      rw [hqe]
      exact Nat.div_add_mod a' b
    have hr : a % b ≤ a' % b := by omega
    unfold pyRound
    rw [hqe]
    split_ifs <;> omega

theorem pyRound_zero (b : Nat) (hb : 0 < b) : pyRound 0 b = 0 := by
  have h : 2 * (0 % b) < b := by simpa using hb
  unfold pyRound
  rw [if_pos h, Nat.zero_div]

theorem pyRound_mul_self (L b : Nat) (hb : 0 < b) : pyRound (L * b) b = L := by
  have hm : L * b % b = 0 := Nat.mul_mod_left L b
  have hd : L * b / b = L := Nat.mul_div_cancel L hb
  unfold pyRound
  rw [hm, hd, if_pos (by omega)]

/-- `StandardTomoLoader._calculate_chunk_index_slicing_dim`:
`self._data_indices[0] + round((len(self._data_indices) / nprocs) * rank)`. -/
def calculate_chunk_index_slicing_dim (dataIndices : List Nat) (rank nprocs : Nat) : Nat :=
  dataIndices.headD 0 + pyRound (dataIndices.length * rank) nprocs

/-- `StandardTomoLoader._calculate_chunk_shape`: the chunk extends from this
process's chunk index to the next process's chunk index in the slicing
dimension, and matches the global shape in the other two dimensions. -/
def calculate_chunk_shape (currentIdx nextIdx : Nat) (globalShape : Nat × Nat × Nat) :
    Nat × Nat × Nat :=
  (nextIdx - currentIdx, globalShape.2.1, globalShape.2.2)

/-- C5, proved: the per-process chunk boundaries
`data_indices[0] + round(L·r/N)` are monotone in the rank (consecutive chunks are
non-overlapping: each rank's range ends where the next starts, and any later
rank starts no earlier), and the chunk lengths over ranks `0..N-1` sum to
exactly `L`, tiling `[data_indices[0], data_indices[0] + L)`. -/
theorem c5_chunk_split (di : List Nat) (N : Nat) (g : Nat × Nat × Nat) (hN : 0 < N) :
    (∀ r q, r ≤ q →
      calculate_chunk_index_slicing_dim di r N ≤ calculate_chunk_index_slicing_dim di q N) ∧
    (∀ r q, r < q →
      calculate_chunk_index_slicing_dim di (r + 1) N ≤
        calculate_chunk_index_slicing_dim di q N) ∧
    (∑ r in Finset.range N,
      (calculate_chunk_shape (calculate_chunk_index_slicing_dim di r N)
        (calculate_chunk_index_slicing_dim di (r + 1) N) g).1) = di.length ∧
    calculate_chunk_index_slicing_dim di 0 N = di.headD 0 ∧
    calculate_chunk_index_slicing_dim di N N = di.headD 0 + di.length := by
  have mono : ∀ r q, r ≤ q →
      calculate_chunk_index_slicing_dim di r N ≤ calculate_chunk_index_slicing_dim di q N := by
    intro r q h
    exact Nat.add_le_add_left (pyRound_mono N hN (Nat.mul_le_mul_left _ h)) _
  have hzero : calculate_chunk_index_slicing_dim di 0 N = di.headD 0 := by
    unfold calculate_chunk_index_slicing_dim
    rw [Nat.mul_zero, pyRound_zero N hN]
    omega
  have hend : calculate_chunk_index_slicing_dim di N N = di.headD 0 + di.length := by
    unfold calculate_chunk_index_slicing_dim
    rw [pyRound_mul_self di.length N hN]
  refine ⟨mono, fun r q h => mono (r + 1) q h, ?_, hzero, hend⟩
  have hmono : Monotone (fun r => calculate_chunk_index_slicing_dim di r N) :=
    fun r q h => mono r q h
  have hsum := Finset.sum_range_tsub hmono N
  simp only at hsum
  rw [show (∑ r in Finset.range N,
      (calculate_chunk_shape (calculate_chunk_index_slicing_dim di r N)
        (calculate_chunk_index_slicing_dim di (r + 1) N) g).1) =
      ∑ r in Finset.range N,
        (calculate_chunk_index_slicing_dim di (r + 1) N -
          calculate_chunk_index_slicing_dim di r N) from
    Finset.sum_congr rfl (fun r _ => rfl)]
  rw [hsum, hzero, hend]
  omega

/-- The chunk-split theorem instantiated: 5 retained indices over 2 processes
tile the extent exactly. -/
theorem c5_chunk_split_witness :
    (∑ r in Finset.range 2,
      (calculate_chunk_shape (calculate_chunk_index_slicing_dim [5, 6, 7, 8, 9] r 2)
        (calculate_chunk_index_slicing_dim [5, 6, 7, 8, 9] (r + 1) 2) (5, 4, 3)).1) = 5 :=
  (c5_chunk_split [5, 6, 7, 8, 9] 2 (5, 4, 3) (by decide)).2.2.1

/-- `PreviewDimConfig` from `loader.py`. -/
structure PreviewDimConfig where
  start : Nat
  stop : Nat
deriving DecidableEq, Repr

/-- `PreviewConfig` from `loader.py`. -/
structure PreviewConfig where
  angles : PreviewDimConfig
  detector_y : PreviewDimConfig
  detector_x : PreviewDimConfig
deriving DecidableEq, Repr

/-- The error kinds raised on the loader-construction paths modelled here
(`NotImplementedError` for an unsupported slicing dimension, the two
`ValueError`s of `Preview._check_dimension`, the `IndexError` of an empty
angle-index intersection, and the wrapper's pattern assertion). -/
inductive LoaderErr where
  | unsupportedSlicingDim
  | previewExceedsBounds (dim : String)
  | previewStartNotBeforeStop (dim : String)
  | emptyIntersection
  | patternAssertFailed
deriving DecidableEq, Repr

/-- `Preview._check_dimension`: rejects `stop > length`, then `start >= stop`. -/
def check_dimension (name : String) (c : PreviewDimConfig) (length : Nat) :
    Except LoaderErr Unit :=
  if length < c.stop then Except.error (LoaderErr.previewExceedsBounds name)
  else if c.stop ≤ c.start then Except.error (LoaderErr.previewStartNotBeforeStop name)
  else Except.ok ()

/-- `Preview._check_within_data_bounds`: check the three axes in field order,
stopping at the first failure. -/
def check_within_data_bounds (cfg : PreviewConfig) (shape : Nat × Nat × Nat) :
    Except LoaderErr Unit :=
  match check_dimension "angles" cfg.angles shape.1 with
  | Except.error e => Except.error e
  | Except.ok _ =>
    match check_dimension "detector_y" cfg.detector_y shape.2.1 with
    | Except.error e => Except.error e
    | Except.ok _ => check_dimension "detector_x" cfg.detector_x shape.2.2

theorem check_dimension_ok (nm : String) (c : PreviewDimConfig) (len : Nat) :
    check_dimension nm c len = Except.ok () ↔ (c.start < c.stop ∧ c.stop ≤ len) := by
  unfold check_dimension
  split_ifs with h1 h2 <;> simp <;> omega

/-- C10, proved: the preview bounds check accepts a configuration iff every axis
has `start < stop` and `stop ≤ length`; in particular any axis with
`start >= stop` is rejected even when both indices lie within the dataset
extent. -/
theorem c10_preview_bounds (cfg : PreviewConfig) (shape : Nat × Nat × Nat) :
    check_within_data_bounds cfg shape = Except.ok () ↔
      (cfg.angles.start < cfg.angles.stop ∧ cfg.angles.stop ≤ shape.1 ∧
        cfg.detector_y.start < cfg.detector_y.stop ∧ cfg.detector_y.stop ≤ shape.2.1 ∧
        cfg.detector_x.start < cfg.detector_x.stop ∧ cfg.detector_x.stop ≤ shape.2.2) := by
  constructor
  · intro h
    unfold check_within_data_bounds at h
    rcases hA : check_dimension "angles" cfg.angles shape.1 with eA | uA
    · rw [hA] at h
      cases h
    · rw [hA] at h
      rcases hY : check_dimension "detector_y" cfg.detector_y shape.2.1 with eY | uY
      · rw [hY] at h
        cases h
      · rw [hY] at h
        have hA' := (check_dimension_ok "angles" cfg.angles shape.1).mp hA
        have hY' := (check_dimension_ok "detector_y" cfg.detector_y shape.2.1).mp hY
        have hX' := (check_dimension_ok "detector_x" cfg.detector_x shape.2.2).mp h
        exact ⟨hA'.1, hA'.2, hY'.1, hY'.2, hX'.1, hX'.2⟩
  · rintro ⟨h1, h2, h3, h4, h5, h6⟩
    unfold check_within_data_bounds
    rw [(check_dimension_ok "angles" cfg.angles shape.1).mpr ⟨h1, h2⟩,
      (check_dimension_ok "detector_y" cfg.detector_y shape.2.1).mpr ⟨h3, h4⟩]
    exact (check_dimension_ok "detector_x" cfg.detector_x shape.2.2).mpr ⟨h5, h6⟩

/-- The candidate data indices of `Preview._calculate_data_indices`: the indices
where the image key is 0 when an image key is present, otherwise all indices of
the dataset's first axis. -/
def data_indices_source (imageKey : Option (List Nat)) (datasetLen : Nat) : List Nat :=
  match imageKey with
  | some key => (List.range key.length).filter (fun i => decide (key.getD i 1 = 0))
  | none => List.range datasetLen

/-- `np.arange(start, stop)` of a preview dimension. -/
def preview_range (c : PreviewDimConfig) : List Nat :=
  List.range' c.start (c.stop - c.start)

/-- `np.intersect1d(indices, preview_data_indices)`: both inputs are sorted and
duplicate-free, so the intersection is the preview range filtered by membership
in the candidate indices. -/
def angles_intersection (imageKey : Option (List Nat)) (datasetLen : Nat)
    (cfg : PreviewConfig) : List Nat :=
  (preview_range cfg.angles).filter
    (fun i => decide (i ∈ data_indices_source imageKey datasetLen))

/-- `Preview._calculate_data_indices`: returns the effective indices and the
(possibly narrowed) preview configuration; `none` models the `IndexError` the
source hits when the intersection is empty but differs from the preview range. -/
def calculate_data_indices (imageKey : Option (List Nat)) (datasetLen : Nat)
    (cfg : PreviewConfig) : Option (List Nat × PreviewConfig) :=
  if angles_intersection imageKey datasetLen cfg = preview_range cfg.angles then
    some (angles_intersection imageKey datasetLen cfg, cfg)
  else
    match angles_intersection imageKey datasetLen cfg with
    | [] => none
    | i0 :: rest =>
      some (i0 :: rest,
        { cfg with angles := ⟨i0, (i0 :: rest).getLastD 0 + 1⟩ })

theorem mem_preview_range (c : PreviewDimConfig) (i : Nat) :
    i ∈ preview_range c ↔ c.start ≤ i ∧ i < c.stop := by
  unfold preview_range
  rw [List.mem_range']
  constructor
  · rintro ⟨k, hk, rfl⟩
    omega
  · rintro ⟨h1, h2⟩
    exact ⟨i - c.start, by omega, by omega⟩

theorem le_getLastD_of_pairwise :
    ∀ l : List Nat, l.Pairwise (· < ·) → ∀ x ∈ l, x ≤ l.getLastD 0 := by
  intro l
  induction l with
  | nil =>
    intro _ x hx
    cases hx
  | cons a t ih =>
    intro hpw x hx
    rcases List.pairwise_cons.mp hpw with ⟨hlt, htail⟩
    cases t with
    | nil =>
      have hxa : x = a := by simpa using hx
      simp [hxa]
    | cons b t2 =>
      have hLD : (a :: b :: t2).getLastD 0 = (b :: t2).getLastD 0 := rfl
      rw [hLD]
      rcases List.mem_cons.mp hx with rfl | hx2
      · exact le_trans (le_of_lt (hlt b (List.mem_cons_self _ _)))
          (ih htail b (List.mem_cons_self _ _))
      · exact ih htail x hx2

theorem getLastD_mem_of_ne_nil (l : List Nat) (h : l ≠ []) : l.getLastD 0 ∈ l := by
  cases l with
  | nil => exact absurd rfl h
  | cons a t =>
    rw [show (a :: t).getLastD 0 = List.getLast (a :: t) (by simp) from rfl]
    exact List.getLast_mem _

/-- C6, proved: with an image key, the effective angle indices are exactly the
intersection of the preview's `[start, stop)` with the key-0 indices; when that
intersection is a strict subset of the preview range (and nonempty — the code
crashes on an empty one), the angles preview is narrowed to
`[min(intersection), max(intersection) + 1)` with the detector axes untouched;
when the intersection equals the preview range, the configuration is unchanged;
and without an image key (given the bounds check `stop ≤ len` already enforced),
the effective indices are exactly the preview range. -/
theorem c6_data_indices (key : List Nat) (n : Nat) (cfg : PreviewConfig)
    (hbound : cfg.angles.stop ≤ n) :
    calculate_data_indices none n cfg = some (preview_range cfg.angles, cfg) ∧
    (∀ i, i ∈ angles_intersection (some key) n cfg ↔
      (cfg.angles.start ≤ i ∧ i < cfg.angles.stop ∧ i < key.length ∧ key.getD i 1 = 0)) ∧
    (angles_intersection (some key) n cfg ≠ preview_range cfg.angles →
      angles_intersection (some key) n cfg ≠ [] →
      ∃ l res, calculate_data_indices (some key) n cfg = some (l, res) ∧
        l = angles_intersection (some key) n cfg ∧
        res.angles.start ∈ l ∧ (res.angles.stop - 1) ∈ l ∧
        (∀ x ∈ l, res.angles.start ≤ x ∧ x ≤ res.angles.stop - 1) ∧
        res.detector_y = cfg.detector_y ∧ res.detector_x = cfg.detector_x) ∧
    (angles_intersection (some key) n cfg = preview_range cfg.angles →
      calculate_data_indices (some key) n cfg =
        some (angles_intersection (some key) n cfg, cfg)) := by
  refine ⟨?_, ?_, ?_, ?_⟩
  · have hsub : angles_intersection none n cfg = preview_range cfg.angles := by
      unfold angles_intersection
      apply List.filter_eq_self.mpr
      intro a ha
      have hmem := (mem_preview_range cfg.angles a).mp ha
      simp only [data_indices_source, List.mem_range, decide_eq_true_eq]
      omega
    unfold calculate_data_indices
    rw [if_pos hsub, hsub]
  · intro i
    unfold angles_intersection
    rw [List.mem_filter, mem_preview_range]
    simp only [data_indices_source, List.mem_range, decide_eq_true_eq, List.mem_filter]
    constructor
    · rintro ⟨⟨ha, hb⟩, ⟨hc, hd⟩⟩
      exact ⟨ha, hb, hc, hd⟩
    · rintro ⟨ha, hb, hc, hd⟩
      exact ⟨⟨ha, hb⟩, ⟨hc, hd⟩⟩
  · intro hne hnn
    have hpw : (angles_intersection (some key) n cfg).Pairwise (· < ·) := by
      unfold angles_intersection
      exact List.Pairwise.filter _ (List.pairwise_lt_range' cfg.angles.start _)
    rcases heq : angles_intersection (some key) n cfg with _ | ⟨i0, rest⟩
    · exact absurd heq hnn
    · rw [heq] at hpw
      have hne' : (i0 :: rest) ≠ preview_range cfg.angles := heq ▸ hne
      have hcalc : calculate_data_indices (some key) n cfg =
          some (i0 :: rest, { cfg with angles := ⟨i0, (i0 :: rest).getLastD 0 + 1⟩ }) := by
        unfold calculate_data_indices
        rw [heq, if_neg hne']
      refine ⟨i0 :: rest, { cfg with angles := ⟨i0, (i0 :: rest).getLastD 0 + 1⟩ },
        hcalc, rfl, List.mem_cons_self _ _, ?_, ?_, rfl, rfl⟩
      · show ((i0 :: rest).getLastD 0 + 1 - 1) ∈ (i0 :: rest)
        rw [Nat.add_sub_cancel]
        exact getLastD_mem_of_ne_nil _ (by simp)
      · intro x hx
        constructor
        · show i0 ≤ x
          rcases List.mem_cons.mp hx with rfl | hx2
          · exact le_refl x
          · exact le_of_lt ((List.pairwise_cons.mp hpw).1 x hx2)
        · show x ≤ (i0 :: rest).getLastD 0 + 1 - 1
          rw [Nat.add_sub_cancel]
          exact le_getLastD_of_pairwise _ hpw x hx
  · intro hsame
    unfold calculate_data_indices
    rw [if_pos hsame]

/-- The summary of a constructed `StandardTomoLoader` relevant to the claims:
the effective data indices, the (possibly narrowed) preview, the global shape,
and the per-process chunk index and shape. -/
structure LoaderState where
  dataIndices : List Nat
  previewConfig : PreviewConfig
  globalShape : Nat × Nat × Nat
  chunkIndex : Nat × Nat × Nat
  chunkShape : Nat × Nat × Nat
deriving DecidableEq, Repr

/-- The raw file inputs of the loader: the dataset shape and the optional image
key. -/
structure RawData where
  shape : Nat × Nat × Nat
  imageKey : Option (List Nat)
deriving DecidableEq, Repr

/-- `StandardTomoLoader.__init__`: reject a slicing dimension other than 0,
check the preview against the dataset bounds, resolve the effective angle
indices, and compute the chunk index and chunk shape for this process. -/
def standard_tomo_loader_init (preview : PreviewConfig) (raw : RawData)
    (slicingDim rank nprocs : Nat) : Except LoaderErr LoaderState :=
  if slicingDim ≠ 0 then Except.error LoaderErr.unsupportedSlicingDim
  else
    match check_within_data_bounds preview raw.shape with
    | Except.error e => Except.error e
    | Except.ok _ =>
      match calculate_data_indices raw.imageKey raw.shape.1 preview with
      | none => Except.error LoaderErr.emptyIntersection
      | some (dataIndices, cfg2) =>
        Except.ok {
          dataIndices := dataIndices,
          previewConfig := cfg2,
          globalShape := (dataIndices.length,
            cfg2.detector_y.stop - cfg2.detector_y.start,
            cfg2.detector_x.stop - cfg2.detector_x.start),
          chunkIndex := (calculate_chunk_index_slicing_dim dataIndices rank nprocs,
            cfg2.detector_y.start, cfg2.detector_x.start),
          chunkShape := calculate_chunk_shape
            (calculate_chunk_index_slicing_dim dataIndices rank nprocs)
            (calculate_chunk_index_slicing_dim dataIndices (rank + 1) nprocs)
            (dataIndices.length,
              cfg2.detector_y.stop - cfg2.detector_y.start,
              cfg2.detector_x.stop - cfg2.detector_x.start) }

/-- `StandardLoaderWrapper.make_data_source`: assert the resolved pattern is
sinogram or projection, choose slicing dimension 1 for sinogram and 0
otherwise, and construct the loader. -/
def make_data_source (pattern : Pattern) (preview : PreviewConfig) (raw : RawData)
    (rank nprocs : Nat) : Except LoaderErr LoaderState :=
  if pattern = Pattern.sinogram ∨ pattern = Pattern.projection then
    standard_tomo_loader_init preview raw
      (if pattern = Pattern.sinogram then 1 else 0) rank nprocs
  else Except.error LoaderErr.patternAssertFailed

/-- C8, proved: every slicing dimension other than 0 makes the loader
constructor fail with the unsupported-slicing-dim error; consequently
`make_data_source` with a sinogram pattern (which picks slicing dimension 1)
always fails with that error, while with a projection pattern it succeeds
whenever the preview passes the bounds check and the angle-index resolution
does not crash. -/
theorem c8_slicing_dim :
    (∀ (preview : PreviewConfig) (raw : RawData) (sd rank nprocs : Nat), sd ≠ 0 →
      standard_tomo_loader_init preview raw sd rank nprocs =
        Except.error LoaderErr.unsupportedSlicingDim) ∧
    (∀ (preview : PreviewConfig) (raw : RawData) (rank nprocs : Nat),
      make_data_source Pattern.sinogram preview raw rank nprocs =
        Except.error LoaderErr.unsupportedSlicingDim) ∧
    (∀ (preview : PreviewConfig) (raw : RawData) (rank nprocs : Nat),
      check_within_data_bounds preview raw.shape = Except.ok () →
      calculate_data_indices raw.imageKey raw.shape.1 preview ≠ none →
      ∃ st, make_data_source Pattern.projection preview raw rank nprocs =
        Except.ok st) := by
  refine ⟨?_, ?_, ?_⟩
  · intro pv raw sd r nP hsd
    unfold standard_tomo_loader_init
    rw [if_pos hsd]
  · intro pv raw r nP
    unfold make_data_source
    rw [if_pos (Or.inl rfl), if_pos rfl]
    unfold standard_tomo_loader_init
    rw [if_pos Nat.one_ne_zero]
  · intro pv raw r nP hok hne
    unfold make_data_source
    rw [if_pos (Or.inr rfl), if_neg (by simp)]
    unfold standard_tomo_loader_init
    rw [if_neg (by simp), hok]
    rcases hcd : calculate_data_indices raw.imageKey raw.shape.1 pv with _ | ⟨di, cfg2⟩
    · exact absurd hcd hne
    · exact ⟨_, rfl⟩

/-- A valid preview over a `(4, 3, 2)` dataset with no image key. -/
def c8_example_preview : PreviewConfig := ⟨⟨0, 4⟩, ⟨0, 3⟩, ⟨0, 2⟩⟩

/-- A `(4, 3, 2)` raw dataset with no image key. -/
def c8_example_raw : RawData := ⟨(4, 3, 2), none⟩

/-- The slicing-dimension theorem instantiated: slicing dimension 1 is rejected,
and a projection-pattern data source construction succeeds on a valid preview. -/
theorem c8_slicing_dim_witness :
    standard_tomo_loader_init c8_example_preview c8_example_raw 1 0 1 =
      Except.error LoaderErr.unsupportedSlicingDim ∧
    (make_data_source Pattern.projection c8_example_preview c8_example_raw 0 1).isOk =
      true := by
  constructor
  · exact c8_slicing_dim.1 c8_example_preview c8_example_raw 1 0 1 (by decide)
  · obtain ⟨st, hst⟩ := c8_slicing_dim.2.2 c8_example_preview c8_example_raw 0 1
      rfl (by decide)
    rw [hst]
    rfl

/-- A valid preview configuration over a `(4, 3, 2)` dataset. -/
def c6_example_config : PreviewConfig := ⟨⟨0, 4⟩, ⟨0, 3⟩, ⟨0, 2⟩⟩

/-- The data-indices theorem instantiated: without an image key the effective
indices are exactly the preview range. -/
theorem c6_data_indices_witness :
    calculate_data_indices none 4 c6_example_config =
      some (preview_range c6_example_config.angles, c6_example_config) :=
  (c6_data_indices [0, 1, 0, 0] 4 c6_example_config (by decide)).1

/-- The chunk-shape computation of `save_intermediate_data` (`methods.py`):
`frames_per_chunk` falls back to 1 when it exceeds the data's length in the
slicing dimension; then, when positive, the stored chunk shape is
`frames_per_chunk` in the slicing dimension and the global shape elsewhere
(`None`, i.e. no chunking, when `frames_per_chunk` is 0). -/
def save_intermediate_chunk_shape (dataShape globalShape : Fin 3 → Nat)
    (slicingDim : Fin 3) (framesPerChunk : Nat) : Option (Fin 3 → Nat) :=
  let fpc := if dataShape slicingDim < framesPerChunk then 1 else framesPerChunk
  if 0 < fpc then
    some (fun i => if i = slicingDim then fpc else globalShape i)
  else none

/-- C7, proved: for `frames_per_chunk > 0` the persisted chunk shape equals the
global shape in the two non-slicing dimensions and `frames_per_chunk` in the
slicing dimension, except that a `frames_per_chunk` exceeding the
slicing-dimension length of the data falls back to a chunk width of 1. -/
theorem c7_chunk_shape (dataShape globalShape : Fin 3 → Nat) (sd : Fin 3)
    (fpc : Nat) (hpos : 0 < fpc) :
    ∃ cs, save_intermediate_chunk_shape dataShape globalShape sd fpc = some cs ∧
      (∀ i, i ≠ sd → cs i = globalShape i) ∧
      (fpc ≤ dataShape sd → cs sd = fpc) ∧
      (dataShape sd < fpc → cs sd = 1) := by
  simp only [save_intermediate_chunk_shape]
  by_cases hgt : dataShape sd < fpc
  · rw [if_pos hgt, if_pos Nat.one_pos]
    refine ⟨_, rfl, ?_, ?_, fun _ => ?_⟩
    · intro i hi
      rw [if_neg hi]
    · intro hle
      exact absurd hgt (by omega)
    · rw [if_pos rfl]
  · rw [if_neg hgt, if_pos hpos]
    refine ⟨_, rfl, ?_, fun _ => ?_, ?_⟩
    · intro i hi
      rw [if_neg hi]
    · rw [if_pos rfl]
    · intro hlt
      exact absurd hlt hgt

/-- The chunk-shape theorem instantiated: a positive `frames_per_chunk` yields a
chunk shape. -/
theorem c7_chunk_shape_witness :
    (save_intermediate_chunk_shape (fun _ => 6) (fun _ => 10) 0 4).isSome = true := by
  obtain ⟨cs, hcs, _, _, _⟩ := c7_chunk_shape (fun _ => 6) (fun _ => 10) 0 4 (by decide)
  rw [hcs]
  rfl

/-- A `darks`/`flats` entry of the loader configuration mapping: each field is
optional and defaults to the main file's value. -/
structure DarksFlatsEntry where
  file : Option String
  data_path : Option String
  image_key_path : Option String
deriving DecidableEq, Repr

/-- `DarksFlatsFileConfig` from `loader.py`. -/
structure DarksFlatsFileConfig where
  file : String
  data_path : String
  image_key_path : Option String
deriving DecidableEq, Repr

/-- The keyword arguments `make_loader` reads (the `dimension`, `preview` and
`pad` entries are read but unused by the construction and are omitted). -/
structure LoaderKwargs where
  in_file : String
  data_path : String
  image_key_path : Option String
  rotation_angles_data_path : String
  darks : Option DarksFlatsEntry
  flats : Option DarksFlatsEntry
deriving DecidableEq, Repr

/-- The state `StandardLoaderWrapper.__init__` records. -/
structure StandardLoaderWrapperConfig where
  pattern : Pattern
  method_name : String
  package_name : String
  in_file : String
  data_path : String
  image_key_path : Option String
  darks : DarksFlatsFileConfig
  flats : DarksFlatsFileConfig
  angles_data_path : String
deriving DecidableEq, Repr

/-- The empty dictionary default of `kwargs.get("darks", dict())`. -/
def empty_entry : DarksFlatsEntry := ⟨none, none, none⟩

/-- `make_loader` from `loader.py`.  Note the source reads the *darks* entry for
both configurations: `flats: dict = kwargs.get("darks", dict())`. -/
def make_loader (kw : LoaderKwargs) : StandardLoaderWrapperConfig :=
  let darksDict := kw.darks.getD empty_entry
  let flatsDict := kw.darks.getD empty_entry
  { pattern := Pattern.projection
    method_name := "standard_tomo"
    package_name := "httomo"
    in_file := kw.in_file
    data_path := kw.data_path
    image_key_path := kw.image_key_path
    darks := ⟨darksDict.file.getD kw.in_file, darksDict.data_path.getD kw.data_path,
      match darksDict.image_key_path with
      | some v => some v
      | none => kw.image_key_path⟩
    flats := ⟨flatsDict.file.getD kw.in_file, flatsDict.data_path.getD kw.data_path,
      match flatsDict.image_key_path with
      | some v => some v
      | none => kw.image_key_path⟩
    angles_data_path := kw.rotation_angles_data_path }

/-- C9, proved: the flats configuration produced by `make_loader` is read from
the `darks` keyword entry: supplying any distinct `flats` entry changes nothing,
and the resulting flats file, data path and image-key path equal the
darks-derived values (main-file defaults when absent). -/
theorem c9_flats_from_darks (kw : LoaderKwargs) (e : Option DarksFlatsEntry) :
    make_loader { kw with flats := e } = make_loader kw ∧
    (make_loader kw).flats = (make_loader kw).darks ∧
    (make_loader kw).flats = ⟨(kw.darks.getD empty_entry).file.getD kw.in_file,
      (kw.darks.getD empty_entry).data_path.getD kw.data_path,
      match (kw.darks.getD empty_entry).image_key_path with
      | some v => some v
      | none => kw.image_key_path⟩ :=
  ⟨rfl, rfl, rfl⟩

end Httomo
